import Mathlib

/-!
Verification of the schema-extraction / validation engine of `env_validator.py`.

Strings are modelled as `List Char`.  Python string helpers (`strip`,
`rstrip`, `lower`, …) are embedded as executable functions on `List Char`.
Whitespace is modelled as the ASCII whitespace characters Python's `str.strip`
removes; `str.lower` is modelled with `Char.toLower` (the inputs of interest
are ASCII).
-/

namespace EnvValidator

/-- The single-quote character (code point 39). -/
def sqc : Char := Char.ofNat 39

/-- The double-quote character (code point 34). -/
def dqc : Char := Char.ofNat 34

/-- The backslash character (code point 92). -/
def bsc : Char := Char.ofNat 92

/-- The horizontal-tab character. -/
def tabc : Char := Char.ofNat 9

/-- The line-feed character. -/
def nlc : Char := Char.ofNat 10

/-- The carriage-return character. -/
def crc : Char := Char.ofNat 13

/-- ASCII whitespace as stripped by Python's `str.strip()`:
space, tab, newline, carriage return, vertical tab, form feed. -/
def isWs (c : Char) : Bool :=
  c == ' ' || c == tabc || c == nlc || c == crc ||
  c == Char.ofNat 11 || c == Char.ofNat 12

/-- Remove leading whitespace (`lstrip`). -/
def trimStart (l : List Char) : List Char := l.dropWhile isWs

/-- Remove trailing whitespace (`rstrip`). -/
def trimEnd (l : List Char) : List Char := (l.reverse.dropWhile isWs).reverse

/-- Python `str.strip()`. -/
def pyStrip (l : List Char) : List Char := trimEnd (trimStart l)

/-- Python `str.rstrip(c0)` for a single character `c0`: remove all trailing
occurrences of `c0`. -/
def rstripChar (c0 : Char) (l : List Char) : List Char :=
  (l.reverse.dropWhile (fun c => c == c0)).reverse

/-- Python `str.strip(c0)` for a single character `c0`: remove all leading and
trailing occurrences of `c0`. -/
def stripBoth (c0 : Char) (l : List Char) : List Char :=
  ((l.dropWhile (fun c => c == c0)).reverse.dropWhile (fun c => c == c0)).reverse

/-- Python `str.lower()` (ASCII model). -/
def lowerStr (l : List Char) : List Char := l.map Char.toLower

/-! ## The List Tokenizer (`_tokenize_list`)

The source scans the inner text of a bracketed list character by character,
maintaining flags `in_quote` / `quote_char` / `in_regex` / `regex_escaped`.
We model this scanner state as `Mode` and the per-character transition as
`stepMode`, exactly following the branches of the Python loop.  A comma is a
token separator precisely when the scanner is at top level. -/

/-- Scanner state of the list tokenizer: top level, inside a quoted string
(with its quote character), or inside a slash-delimited regex (with the
`regex_escaped` flag). -/
inductive Mode : Type where
  | top : Mode
  | quote : Char → Mode
  | regex : Bool → Mode
  deriving DecidableEq, Repr

/-- One character step of the tokenizer scanner, mirroring the branch
structure of the Python loop (the separating-comma branch is handled by the
tokenizer itself; at top level a comma leaves the state at top level, which is
what this function returns for it). -/
def stepMode : Mode → Char → Mode
  | Mode.top, c =>
      if c = sqc ∨ c = dqc then Mode.quote c
      else if c = '/' then Mode.regex false
      else Mode.top
  | Mode.quote q, c => if c = q then Mode.top else Mode.quote q
  | Mode.regex e, c =>
      if c = bsc then Mode.regex (!e)
      else if c = '/' ∧ e = false then Mode.top
      else Mode.regex false

/-- Scanner state after consuming a list of characters. -/
def scan (m : Mode) (l : List Char) : Mode := l.foldl stepMode m

/-- Split a character list into the raw regions separated by top-level commas,
starting in scanner state `m`.  The result is `(first region, later regions)`;
every character except separating commas is kept in its region, exactly as the
Python loop appends every non-separator character to `current`. -/
def tokAux : Mode → List Char → List Char × List (List Char)
  | _, [] => ([], [])
  | m, c :: cs =>
      if m = Mode.top ∧ c = ',' then
        ([], (tokAux Mode.top cs).1 :: (tokAux Mode.top cs).2)
      else
        (c :: (tokAux (stepMode m c) cs).1, (tokAux (stepMode m c) cs).2)

/-- The regions of a scan as a single list. -/
def regions (m : Mode) (l : List Char) : List (List Char) :=
  (tokAux m l).1 :: (tokAux m l).2

/-- The split-strip-filter phase of the tokenizer: split at top-level commas,
strip each raw token, and drop tokens that are empty after stripping. -/
def rawTokens (l : List Char) : List (List Char) :=
  ((regions Mode.top l).map pyStrip).filter (fun t => !t.isEmpty)

/-- Function `_tokenize_list`: strip the inner text (`s = inner.strip()`), then split at
top-level commas, strip each raw token, and drop tokens that are empty after
stripping. -/
def tokenize_list (l : List Char) : List (List Char) :=
  rawTokens (pyStrip l)

/-- Joining tokens back with commas (the re-joining used by the idempotence
property of the specification). -/
def joinC : List (List Char) → List Char
  | [] => []
  | [t] => t
  | t :: t2 :: ts => t ++ ',' :: joinC (t2 :: ts)

/-- Holds (as `true`) iff scanning `l` from state `m` never meets a separating
(top-level) comma. -/
def noSplit : Mode → List Char → Bool
  | _, [] => true
  | m, c :: cs => !(decide (m = Mode.top ∧ c = ',')) && noSplit (stepMode m c) cs

/-! ## Basic facts about the scanner -/

theorem scan_nil (m : Mode) : scan m [] = m := rfl

theorem scan_cons (m : Mode) (c : Char) (l : List Char) :
    scan m (c :: l) = scan (stepMode m c) l := rfl

theorem scan_append (m : Mode) (xs ys : List Char) :
    scan m (xs ++ ys) = scan (scan m xs) ys := by
  simp [scan, List.foldl_append]

theorem noSplit_nil (m : Mode) : noSplit m [] = true := rfl

theorem noSplit_cons (m : Mode) (c : Char) (l : List Char) :
    noSplit m (c :: l) =
      (!(decide (m = Mode.top ∧ c = ',')) && noSplit (stepMode m c) l) := rfl

theorem noSplit_append (m : Mode) (xs ys : List Char) :
    noSplit m (xs ++ ys) = (noSplit m xs && noSplit (scan m xs) ys) := by
  induction xs generalizing m with
  | nil => simp [noSplit, scan]
  | cons c cs ih => simp [noSplit_cons, scan_cons, ih, Bool.and_assoc]

theorem tokAux_nil (m : Mode) : tokAux m [] = ([], []) := rfl

theorem tokAux_cons_split (c : Char) (cs : List Char) (h : c = ',') :
    tokAux Mode.top (c :: cs) =
      ([], (tokAux Mode.top cs).1 :: (tokAux Mode.top cs).2) := by
  subst h; simp [tokAux]

theorem tokAux_cons_of_not_split (m : Mode) (c : Char) (cs : List Char)
    (h : ¬ (m = Mode.top ∧ c = ',')) :
    tokAux m (c :: cs) =
      (c :: (tokAux (stepMode m c) cs).1, (tokAux (stepMode m c) cs).2) := by
  simp only [tokAux, if_neg h]

theorem tokAux_append_of_noSplit (xs : List Char) :
    ∀ (m : Mode) (ys : List Char), noSplit m xs = true →
      tokAux m (xs ++ ys) =
        (xs ++ (tokAux (scan m xs) ys).1, (tokAux (scan m xs) ys).2) := by
  induction xs with
  | nil => intro m ys _; simp [scan]
  | cons c cs ih =>
      intro m ys h
      rw [noSplit_cons, Bool.and_eq_true, Bool.not_eq_true', decide_eq_false_iff_not] at h
      rw [List.cons_append, tokAux_cons_of_not_split m c _ h.1, ih _ _ h.2,
        scan_cons, List.cons_append]

theorem tokAux_of_noSplit (m : Mode) (xs : List Char) (h : noSplit m xs = true) :
    tokAux m xs = (xs, []) := by
  have h2 := tokAux_append_of_noSplit xs m [] h
  simpa [tokAux_nil] using h2

/-! ## The token invariant

Every raw region produced by `tokAux` contains no separating comma when
rescanned from the state it was originally scanned from, and every region
except the last one rescans back to the top-level state (its end was a
splitting comma). -/

/-- A well-formed final token: rescanning it from top level meets no
separating comma, it is strip-fixed, and it is nonempty. -/
def Tok (t : List Char) : Prop :=
  noSplit Mode.top t = true ∧ pyStrip t = t ∧ t ≠ []

/-- A well-formed token list: every token is a `Tok` and every token except
possibly the last rescans to the top-level state. -/
def GoodToks : List (List Char) → Prop
  | [] => True
  | [t] => Tok t
  | t :: t2 :: ts => Tok t ∧ scan Mode.top t = Mode.top ∧ GoodToks (t2 :: ts)

/-- A well-formed raw-region list (before stripping and filtering). -/
def GoodRegs : List (List Char) → Prop
  | [] => True
  | [r] => noSplit Mode.top r = true
  | r :: r2 :: rs =>
      noSplit Mode.top r = true ∧ scan Mode.top r = Mode.top ∧ GoodRegs (r2 :: rs)

theorem goodRegs_cons (r : List Char) (rs : List (List Char))
    (h1 : noSplit Mode.top r = true)
    (h2 : rs ≠ [] → scan Mode.top r = Mode.top) (h3 : GoodRegs rs) :
    GoodRegs (r :: rs) := by
  cases rs with
  | nil => exact h1
  | cons r2 rs' => exact ⟨h1, h2 (by simp), h3⟩

theorem tokAux_good (cs : List Char) : ∀ m : Mode,
    noSplit m (tokAux m cs).1 = true ∧
      ((tokAux m cs).2 ≠ [] →
        scan m (tokAux m cs).1 = Mode.top ∧ GoodRegs (tokAux m cs).2) := by
  induction cs with
  | nil => intro m; simp [tokAux_nil, noSplit_nil]
  | cons c cs ih =>
      intro m
      by_cases hsp : m = Mode.top ∧ c = ','
      · obtain ⟨hm, hc⟩ := hsp
        subst hm
        rw [tokAux_cons_split c cs hc]
        refine ⟨noSplit_nil _, fun _ => ⟨scan_nil _, ?_⟩⟩
        obtain ⟨ih1, ih2⟩ := ih Mode.top
        exact goodRegs_cons _ _ ih1 (fun h => (ih2 h).1) (by
          by_cases h : (tokAux Mode.top cs).2 = []
          · rw [h]; trivial
          · exact (ih2 h).2)
      · rw [tokAux_cons_of_not_split m c cs hsp]
        obtain ⟨ih1, ih2⟩ := ih (stepMode m c)
        constructor
        · rw [noSplit_cons, Bool.and_eq_true, Bool.not_eq_true',
            decide_eq_false_iff_not]
          exact ⟨hsp, ih1⟩
        · intro hne
          exact ⟨by rw [scan_cons]; exact (ih2 hne).1, (ih2 hne).2⟩

/-! ## Whitespace lemmas -/

theorem isWs_spec (c : Char) (h : isWs c = true) :
    c = ' ' ∨ c = tabc ∨ c = nlc ∨ c = crc ∨
      c = Char.ofNat 11 ∨ c = Char.ofNat 12 := by
  simp only [isWs, Bool.or_eq_true, beq_iff_eq] at h
  tauto

theorem ws_not_special (c : Char) (h : isWs c = true) :
    c ≠ sqc ∧ c ≠ dqc ∧ c ≠ '/' ∧ c ≠ ',' ∧ c ≠ bsc := by
  rcases isWs_spec c h with h' | h' | h' | h' | h' | h' <;> subst h' <;>
    refine ⟨by decide, by decide, by decide, by decide, by decide⟩

theorem stepMode_ws_top (c : Char) (h : isWs c = true) :
    stepMode Mode.top c = Mode.top := by
  obtain ⟨h1, h2, h3, _, _⟩ := ws_not_special c h
  simp only [stepMode]
  rw [if_neg (by tauto), if_neg h3]

/-- Reachable scanner states: a quote state always carries one of the two
quote characters. -/
def ModeOk : Mode → Prop
  | Mode.top => True
  | Mode.quote q => q = sqc ∨ q = dqc
  | Mode.regex _ => True

theorem modeOk_step (m : Mode) (c : Char) (h : ModeOk m) : ModeOk (stepMode m c) := by
  cases m with
  | top =>
      by_cases hq : c = sqc ∨ c = dqc
      · simp only [stepMode, if_pos hq]; exact hq
      · by_cases hs : c = '/'
        · simp only [stepMode, if_neg hq, if_pos hs]; exact trivial
        · simp only [stepMode, if_neg hq, if_neg hs]; exact trivial
  | quote q =>
      by_cases hc : c = q <;> simp only [stepMode] <;>
        first | rw [if_pos hc]; trivial | rw [if_neg hc]; exact h
  | regex e =>
      by_cases hb : c = bsc
      · simp only [stepMode, if_pos hb]; trivial
      · by_cases hs : c = '/' ∧ e = false <;> simp only [stepMode, if_neg hb] <;>
          first | rw [if_pos hs]; trivial | rw [if_neg hs]; trivial

theorem modeOk_scan (m : Mode) (l : List Char) (h : ModeOk m) : ModeOk (scan m l) := by
  induction l generalizing m with
  | nil => exact h
  | cons c cs ih => rw [scan_cons]; exact ih _ (modeOk_step m c h)

theorem scan_ws_eq_top (zs : List Char) : ∀ m : Mode,
    (∀ c ∈ zs, isWs c = true) → ModeOk m → scan m zs = Mode.top → m = Mode.top := by
  induction zs with
  | nil => intro m _ _ h; exact h
  | cons z zs ih =>
      intro m hz hOk h
      rw [scan_cons] at h
      have hstep : stepMode m z = Mode.top :=
        ih _ (fun c hc => hz c (List.mem_cons_of_mem _ hc)) (modeOk_step _ _ hOk) h
      have hzw : isWs z = true := hz z (List.mem_cons_self _ _)
      cases m with
      | top => rfl
      | quote q =>
          exfalso
          have hzq : z ≠ q := by
            rcases hOk with h' | h' <;> subst h'
            · exact (ws_not_special z hzw).1
            · exact (ws_not_special z hzw).2.1
          rw [stepMode, if_neg hzq] at hstep
          exact Mode.noConfusion hstep
      | regex e =>
          exfalso
          obtain ⟨_, _, h3, _, h5⟩ := ws_not_special z hzw
          rw [stepMode, if_neg h5, if_neg (by tauto)] at hstep
          exact Mode.noConfusion hstep

theorem noSplit_trimStart (l : List Char) :
    noSplit Mode.top (trimStart l) = noSplit Mode.top l := by
  induction l with
  | nil => rfl
  | cons c cs ih =>
      by_cases hw : isWs c = true
      · rw [trimStart, List.dropWhile_cons_of_pos hw]
        rw [show List.dropWhile isWs cs = trimStart cs from rfl, ih,
          noSplit_cons, stepMode_ws_top c hw]
        have hns : ¬ (Mode.top = Mode.top ∧ c = ',') := fun hh =>
          (ws_not_special c hw).2.2.2.1 hh.2
        rw [decide_eq_false hns]
        simp
      · rw [trimStart, List.dropWhile_cons_of_neg hw]

theorem scan_trimStart (l : List Char) :
    scan Mode.top (trimStart l) = scan Mode.top l := by
  induction l with
  | nil => rfl
  | cons c cs ih =>
      by_cases hw : isWs c = true
      · rw [trimStart, List.dropWhile_cons_of_pos hw]
        rw [show List.dropWhile isWs cs = trimStart cs from rfl, ih,
          scan_cons, stepMode_ws_top c hw]
      · rw [trimStart, List.dropWhile_cons_of_neg hw]

theorem trimEnd_append_ws (l : List Char) :
    ∃ zs, (∀ c ∈ zs, isWs c = true) ∧ trimEnd l ++ zs = l := by
  refine ⟨(l.reverse.takeWhile isWs).reverse, ?_, ?_⟩
  · intro c hc
    rw [List.mem_reverse] at hc
    exact List.mem_takeWhile_imp hc
  · rw [trimEnd, ← List.reverse_append, List.takeWhile_append_dropWhile,
      List.reverse_reverse]

theorem noSplit_trimEnd (l : List Char) (h : noSplit Mode.top l = true) :
    noSplit Mode.top (trimEnd l) = true := by
  obtain ⟨zs, _, hz⟩ := trimEnd_append_ws l
  rw [← hz, noSplit_append, Bool.and_eq_true] at h
  exact h.1

theorem scan_trimEnd (l : List Char) (h : scan Mode.top l = Mode.top) :
    scan Mode.top (trimEnd l) = Mode.top := by
  obtain ⟨zs, hws, hz⟩ := trimEnd_append_ws l
  rw [← hz, scan_append] at h
  exact scan_ws_eq_top zs _ hws (modeOk_scan _ _ trivial) h

theorem noSplit_pyStrip (l : List Char) (h : noSplit Mode.top l = true) :
    noSplit Mode.top (pyStrip l) = true :=
  noSplit_trimEnd _ (by rw [noSplit_trimStart]; exact h)

theorem scan_pyStrip (l : List Char) (h : scan Mode.top l = Mode.top) :
    scan Mode.top (pyStrip l) = Mode.top :=
  scan_trimEnd _ (by rw [scan_trimStart]; exact h)

/-! ## Strip fixpoints -/

theorem dropWhile_dropWhile {α : Type} (p : α → Bool) (l : List α) :
    (l.dropWhile p).dropWhile p = l.dropWhile p := by
  induction l with
  | nil => rfl
  | cons c cs ih =>
      by_cases h : p c = true
      · rw [List.dropWhile_cons_of_pos h, ih]
      · rw [List.dropWhile_cons_of_neg (by simp [h]),
          List.dropWhile_cons_of_neg (by simp [h])]

theorem dropWhile_eq_self_of_length {α : Type} (p : α → Bool) (l : List α)
    (h : (l.dropWhile p).length = l.length) : l.dropWhile p = l := by
  cases l with
  | nil => rfl
  | cons c cs =>
      by_cases hc : p c = true
      · exfalso
        rw [List.dropWhile_cons_of_pos hc] at h
        have := (List.dropWhile_suffix p (l := cs)).length_le
        simp at h
        omega
      · rw [List.dropWhile_cons_of_neg (by simp [hc])]

theorem length_trimEnd_le (l : List Char) : (trimEnd l).length ≤ l.length := by
  rw [trimEnd, List.length_reverse]
  have := (List.dropWhile_suffix isWs (l := l.reverse)).length_le
  simpa using this

theorem length_trimStart_le (l : List Char) : (trimStart l).length ≤ l.length :=
  (List.dropWhile_suffix isWs).length_le

theorem trim_fixed_of_pyStrip_fixed (t : List Char) (h : pyStrip t = t) :
    trimStart t = t ∧ trimEnd t = t := by
  have h1 : (trimStart t).length ≤ t.length := length_trimStart_le t
  have h2 : (trimEnd (trimStart t)).length ≤ (trimStart t).length :=
    length_trimEnd_le _
  have h3 : (trimEnd (trimStart t)).length = t.length := by
    rw [show trimEnd (trimStart t) = pyStrip t from rfl, h]
  have h4 : trimStart t = t :=
    dropWhile_eq_self_of_length isWs t (by
      rw [show List.dropWhile isWs t = trimStart t from rfl]; omega)
  refine ⟨h4, ?_⟩
  have h5 : trimEnd (trimStart t) = t := h
  rwa [h4] at h5

theorem trimStart_head_not_ws (c : Char) (cs : List Char)
    (h : trimStart (c :: cs) = c :: cs) : isWs c = false := by
  by_cases hc : isWs c = true
  · exfalso
    rw [trimStart, List.dropWhile_cons_of_pos hc] at h
    have hlen := congrArg List.length h
    have := (List.dropWhile_suffix isWs (l := cs)).length_le
    simp at hlen
    omega
  · simpa using hc

theorem head_not_ws_of_pyStrip_fixed (t : List Char) (h : pyStrip t = t) :
    ∀ c, t.head? = some c → isWs c = false := by
  intro c hc
  obtain ⟨h1, _⟩ := trim_fixed_of_pyStrip_fixed t h
  cases t with
  | nil => exact absurd hc (by simp)
  | cons a as =>
      have : a = c := by simpa using hc
      subst this
      exact trimStart_head_not_ws a as h1

theorem getLast_not_ws_of_pyStrip_fixed (t : List Char) (h : pyStrip t = t) :
    ∀ c, t.getLast? = some c → isWs c = false := by
  intro c hc
  obtain ⟨_, h2⟩ := trim_fixed_of_pyStrip_fixed t h
  have hrev : List.dropWhile isWs t.reverse = t.reverse := by
    have := congrArg List.reverse h2
    rwa [trimEnd, List.reverse_reverse] at this
  rw [← List.head?_reverse] at hc
  cases hr : t.reverse with
  | nil => rw [hr] at hc; exact absurd hc (by simp)
  | cons a as =>
      rw [hr] at hc hrev
      have : a = c := by simpa using hc
      subst this
      exact trimStart_head_not_ws a as hrev

theorem pyStrip_eq_self_of_ends (l : List Char)
    (hh : ∀ c, l.head? = some c → isWs c = false)
    (hl : ∀ c, l.getLast? = some c → isWs c = false) : pyStrip l = l := by
  have h1 : trimStart l = l := by
    cases l with
    | nil => rfl
    | cons c cs =>
        rw [trimStart, List.dropWhile_cons_of_neg (by simp [hh c rfl])]
  have h2 : trimEnd l = l := by
    cases hr : l.reverse with
    | nil =>
        have : l = [] := by simpa using congrArg List.reverse hr
        subst this; rfl
    | cons c cs =>
        have hcl : l.getLast? = some c := by
          rw [← List.head?_reverse, hr]; rfl
        rw [trimEnd, hr, List.dropWhile_cons_of_neg (by simp [hl c hcl]),
          ← hr, List.reverse_reverse]
  rw [pyStrip, h1, h2]

theorem trimEnd_trimEnd (l : List Char) : trimEnd (trimEnd l) = trimEnd l := by
  rw [trimEnd, trimEnd, List.reverse_reverse, dropWhile_dropWhile]

theorem trimStart_trimEnd_of_fixed (y : List Char) (h : trimStart y = y) :
    trimStart (trimEnd y) = trimEnd y := by
  cases hE : trimEnd y with
  | nil => rfl
  | cons c t =>
      obtain ⟨r, _, hr⟩ := trimEnd_append_ws y
      rw [hE, List.cons_append] at hr
      have hfix : trimStart (c :: (t ++ r)) = c :: (t ++ r) := by rw [hr]; exact h
      have hcw : isWs c = false := trimStart_head_not_ws _ _ hfix
      rw [trimStart, List.dropWhile_cons_of_neg (by simp [hcw])]

theorem pyStrip_idem (l : List Char) : pyStrip (pyStrip l) = pyStrip l := by
  show trimEnd (trimStart (trimEnd (trimStart l))) = trimEnd (trimStart l)
  rw [trimStart_trimEnd_of_fixed (trimStart l) (dropWhile_dropWhile _ _),
    trimEnd_trimEnd]

/-! ## GoodToks facts -/

theorem goodToks_cons_of (x : List Char) (xs : List (List Char))
    (h1 : Tok x) (h2 : scan Mode.top x = Mode.top) (h3 : GoodToks xs) :
    GoodToks (x :: xs) := by
  cases xs with
  | nil => exact h1
  | cons y ys => exact ⟨h1, h2, h3⟩

theorem goodToks_mem : ∀ ts : List (List Char), GoodToks ts → ∀ t ∈ ts, Tok t
  | [], _, t, ht => absurd ht (by simp)
  | [t0], h, t, ht => by
      have : t = t0 := by simpa using ht
      subst this; exact h
  | t0 :: t1 :: ts, h, t, ht => by
      rcases List.mem_cons.1 ht with h' | h'
      · subst h'; exact h.1
      · exact goodToks_mem (t1 :: ts) h.2.2 t h'

theorem joinC_ne_nil (t : List Char) (ts : List (List Char)) (h : t ≠ []) :
    joinC (t :: ts) ≠ [] := by
  cases ts with
  | nil => simpa [joinC] using h
  | cons t2 ts' => simp [joinC]

theorem head?_joinC (t : List Char) (ts : List (List Char)) (h : t ≠ []) :
    (joinC (t :: ts)).head? = t.head? := by
  cases ts with
  | nil => rfl
  | cons t2 ts' =>
      cases t with
      | nil => exact absurd rfl h
      | cons c cs => rfl

theorem getLast?_joinC : ∀ (ts : List (List Char)) (t : List Char),
    (∀ u ∈ t :: ts, u ≠ []) →
    ∃ u ∈ t :: ts, (joinC (t :: ts)).getLast? = u.getLast?
  | [], t, _ => ⟨t, by simp, rfl⟩
  | t2 :: ts', t, hall => by
      obtain ⟨u, hu, hlast⟩ :=
        getLast?_joinC ts' t2 (fun v hv => hall v (List.mem_cons_of_mem _ hv))
      refine ⟨u, List.mem_cons_of_mem _ hu, ?_⟩
      show (t ++ ',' :: joinC (t2 :: ts')).getLast? = u.getLast?
      rw [List.getLast?_append]
      have hne : joinC (t2 :: ts') ≠ [] :=
        joinC_ne_nil t2 ts' (hall t2 (by simp))
      cases hj : joinC (t2 :: ts') with
      | nil => exact absurd hj hne
      | cons d ds =>
          rw [hj] at hlast
          rw [← hlast]
          have : (d :: ds).getLast? = some ((d :: ds).getLast (by simp)) := by
            simp [List.getLast?_eq_getLast]
          simp [List.getLast?_cons_cons, this]

theorem pyStrip_joinC (ts : List (List Char)) (h : GoodToks ts) :
    pyStrip (joinC ts) = joinC ts := by
  cases ts with
  | nil => rfl
  | cons t ts' =>
      have hall : ∀ u ∈ t :: ts', Tok u := goodToks_mem _ h
      have htne : t ≠ [] := (hall t (by simp)).2.2
      apply pyStrip_eq_self_of_ends
      · intro c hc
        rw [head?_joinC t ts' htne] at hc
        exact head_not_ws_of_pyStrip_fixed t (hall t (by simp)).2.1 c hc
      · intro c hc
        obtain ⟨u, hu, hlast⟩ :=
          getLast?_joinC ts' t (fun v hv => (hall v hv).2.2)
        rw [hlast] at hc
        exact getLast_not_ws_of_pyStrip_fixed u (hall u hu).2.1 c hc

/-! ## Re-tokenizing a well-formed token list -/

theorem rawTokens_joinC : ∀ ts : List (List Char), GoodToks ts →
    rawTokens (joinC ts) = ts
  | [], _ => rfl
  | [t], h => by
      obtain ⟨h1, h2, h3⟩ := h
      show ((regions Mode.top t).map pyStrip).filter (fun u => !u.isEmpty) = [t]
      rw [regions, tokAux_of_noSplit Mode.top t h1]
      simp [h2, h3]
  | t :: t2 :: ts, h => by
      obtain ⟨⟨h1, h2, h3⟩, hscan, hrest⟩ := h
      have ih := rawTokens_joinC (t2 :: ts) hrest
      show ((regions Mode.top (t ++ ',' :: joinC (t2 :: ts))).map pyStrip).filter
          (fun u => !u.isEmpty) = t :: t2 :: ts
      rw [regions, tokAux_append_of_noSplit t Mode.top _ h1, hscan,
        tokAux_cons_split ',' _ rfl]
      simp only [List.append_nil, List.map_cons, List.filter_cons]
      rw [h2]
      have : (!t.isEmpty) = true := by
        cases t with
        | nil => exact absurd rfl h3
        | cons a as => rfl
      rw [this]
      simp only [if_pos]
      congr 1
      rw [rawTokens, regions, List.map_cons, List.filter_cons] at ih
      exact ih

theorem goodRegs_postProcess : ∀ rs : List (List Char), GoodRegs rs →
    GoodToks ((rs.map pyStrip).filter (fun u => !u.isEmpty))
  | [], _ => trivial
  | [r], h => by
      simp only [List.map_cons, List.map_nil, List.filter]
      cases he : (!(pyStrip r).isEmpty) with
      | false => exact trivial
      | true =>
          refine ⟨noSplit_pyStrip r h, pyStrip_idem r, ?_⟩
          simp only [Bool.not_eq_true', List.isEmpty_eq_false] at he
          intro hc
          simp [hc] at he
  | r :: r2 :: rs, h => by
      obtain ⟨h1, h2, h3⟩ := h
      have ih := goodRegs_postProcess (r2 :: rs) h3
      simp only [List.map_cons, List.filter]
      cases he : (!(pyStrip r).isEmpty) with
      | false => exact ih
      | true =>
          simp only [Bool.not_eq_true', List.isEmpty_eq_false] at he
          refine goodToks_cons_of _ _ ⟨noSplit_pyStrip r h1, pyStrip_idem r, ?_⟩
            (scan_pyStrip r h2) ih
          intro hc
          simp [hc] at he

theorem goodToks_tokenize (l : List Char) : GoodToks (tokenize_list l) := by
  have h := tokAux_good (pyStrip l) Mode.top
  have hG : GoodRegs (regions Mode.top (pyStrip l)) := by
    rw [regions]
    refine goodRegs_cons _ _ h.1 (fun hne => (h.2 hne).1) ?_
    by_cases hne : (tokAux Mode.top (pyStrip l)).2 = []
    · rw [hne]; trivial
    · exact (h.2 hne).2
  exact goodRegs_postProcess _ hG

/-- Re-tokenizing the comma-joined token list of any input reproduces the
token list. -/
theorem tokenize_roundtrip (l : List Char) :
    tokenize_list (joinC (tokenize_list l)) = tokenize_list l := by
  have hg := goodToks_tokenize l
  show rawTokens (pyStrip (joinC (tokenize_list l))) = tokenize_list l
  rw [pyStrip_joinC _ hg, rawTokens_joinC _ hg]

/-! ## Configuration value parsing (`_parse_env_value`) -/

/-- Scan the characters after an opening quote `q`, mirroring the Python
loop: an unescaped occurrence of `q` closes the value (the accumulated
characters are returned), a backslash that is not itself escaped sets the
escape flag, and every character before the closing quote, including
backslashes, is appended. Returns `none` when no closing quote exists. -/
def quotedScan (q : Char) : Bool → List Char → Option (List Char)
  | _, [] => none
  | esc, c :: cs =>
      if c = q ∧ esc = false then some []
      else (quotedScan q (decide (c = bsc) && !esc) cs).map (fun v => c :: v)

/-- Truncate an unquoted value at its first `#` when the text before that
`#` ends in a space or a tab (mirrors the `find`-and-`endswith` logic of the
source; a first `#` not preceded by whitespace suppresses truncation
entirely). -/
def hashTruncate (s : List Char) : List Char :=
  match s.findIdx? (fun c => c == '#') with
  | none => s
  | some hashPos =>
      let beforeHash := s.take hashPos
      if beforeHash.getLast? = some ' ' ∨ beforeHash.getLast? = some tabc then
        pyStrip beforeHash
      else s

/-- Function `_parse_env_value`: parse a configuration value respecting quotes and
inline comments.  A value starting with a quote is consumed up to the
matching unescaped quote (or to the end when unclosed); otherwise the value
is truncated at an inline comment, trimmed, and stripped of all
leading/trailing single-quote characters and then all leading/trailing
double-quote characters. -/
def parse_env_value (raw : List Char) : List Char :=
  let s := pyStrip (rstripChar crc (rstripChar nlc raw))
  match s with
  | [] => []
  | c :: rest =>
      if c = sqc ∨ c = dqc then
        match quotedScan c false rest with
        | some v => v
        | none => rest
      else
        stripBoth dqc (stripBoth sqc (pyStrip (hashTruncate (c :: rest))))

/-- Modelled from the spec: the final pass as claim C5 words it, stripping
exactly ONE layer of a leading and of a trailing quote character.  This is
not what the code does; it is used only to exhibit the divergence. -/
def strip_one_quote_layer (l : List Char) : List Char :=
  let l1 :=
    match l with
    | [] => ([] : List Char)
    | c :: rest => if c = sqc ∨ c = dqc then rest else c :: rest
  match l1.getLast? with
  | some b => if b = sqc ∨ b = dqc then l1.dropLast else l1
  | none => l1

/-! ## Schema default parsing -/

/-- Function `_strip_quotes`: strip whitespace, then remove one matching pair of
surrounding quote characters if present. -/
def strip_quotes (tok : List Char) : List Char :=
  let t := pyStrip tok
  if 2 ≤ t.length ∧ t.head? = t.getLast? ∧
      (t.head? = some sqc ∨ t.head? = some dqc) then
    (t.drop 1).dropLast
  else t

/-- Python `str.rstrip(",")`: remove all trailing commas. -/
def rstripComma (l : List Char) : List Char := rstripChar ',' l

/-- Function `_parse_default_value_with_quote_info`: returns the pair of value and was-quoted flag;
a `none` value records that the schema said `default=None` (option is
optional, no default). -/
def parse_default_value_with_quote_info (token : List Char) :
    Option (List Char) × Bool :=
  let raw := rstripComma (pyStrip token)
  if lowerStr raw = ['n', 'o', 'n', 'e'] then (none, false)
  else
    let wasQuoted := 2 ≤ raw.length ∧
      (raw.head? = some sqc ∨ raw.head? = some dqc) ∧ raw.getLast? = raw.head?
    (some (strip_quotes raw), decide wasQuoted)

/-! ## Data model of the validation engine -/

/-- The five supported option types. -/
inductive Ty : Type where
  | string : Ty
  | int : Ty
  | float : Ty
  | bool : Ty
  | url : Ty
  deriving DecidableEq, Repr

/-- Primitive operations the embedding leaves abstract: the float model
(Python's IEEE `float()` / `==` / `str`) and the `urlparse`-based URL check.
All validation theorems hold for every choice of these primitives. -/
structure Prims : Type 1 where
  F : Type
  feq : F → F → Bool
  fcoerce : List Char → Option F
  fcanon : F → List Char
  urlOk : List Char → Bool

/-- A coerced Python value as used by the validation engine. -/
inductive PyVal (P : Prims) : Type where
  | vstr : List Char → PyVal P
  | vint : Int → PyVal P
  | vbool : Bool → PyVal P
  | vfloat : P.F → PyVal P

/-- Python equality as used by membership tests in the validation engine.
Values of different shapes never compare equal there (the engine only ever
compares a coerced value with literals normalised for the same type). -/
def pyEq {P : Prims} : PyVal P → PyVal P → Bool
  | PyVal.vstr a, PyVal.vstr b => decide (a = b)
  | PyVal.vint a, PyVal.vint b => decide (a = b)
  | PyVal.vbool a, PyVal.vbool b => decide (a = b)
  | PyVal.vfloat a, PyVal.vfloat b => P.feq a b
  | _, _ => false

/-- A schema option (`ConfigOption` dataclass).  Compiled regex patterns are
modelled as their fullmatch predicates. -/
structure ConfigOption : Type where
  name : List Char
  type_name : Ty
  default : Option (List Char)
  required : Bool
  valid_literals : Option (List (List Char))
  valid_regex : Option (List (List Char))
  compiled_regex : Option (List (List Char → Bool))
  note : Option (List Char)
  default_was_quoted : Bool

/-- The per-block accumulator of the schema extractor (the `meta` dict);
regex entries carry `(fullmatch predicate, display form)`. -/
structure MetaAcc : Type where
  name : Option (List Char)
  type_name : Ty
  default : Option (List Char)
  default_was_quoted : Bool
  valid_literals : Option (List (List Char))
  valid_regex : Option (List ((List Char → Bool) × List Char))
  note : Option (List Char)
  required : Option Bool

/-- Effect of a `default=` meta-line on the accumulator. -/
def apply_default_line (meta : MetaAcc) (tok : List Char) : MetaAcc :=
  let pv := parse_default_value_with_quote_info tok
  { meta with default := pv.1, default_was_quoted := pv.2 }

/-- Assembly of a `ConfigOption` from a finished block accumulator:
requiredness is resolved solely from the `required` meta-line (false when
absent), independently of the default. -/
def assemble_option (header : List Char) (meta : MetaAcc) : ConfigOption :=
  { name := pyStrip (meta.name.getD header)
    type_name := meta.type_name
    default := meta.default
    required := meta.required.getD false
    valid_literals := meta.valid_literals
    valid_regex :=
      let disp := (meta.valid_regex.getD []).map Prod.snd
      if disp.isEmpty then none else some disp
    compiled_regex :=
      let comp := (meta.valid_regex.getD []).map Prod.fst
      if comp.isEmpty then none else some comp
    note := meta.note
    default_was_quoted := meta.default_was_quoted }

/-! ## Type coercion (`_coerce_*`, `_coerce_by_type`) -/

/-- The accepted true spellings of `bool` values (lower-cased). -/
def boolTrueStrs : List (List Char) :=
  [['t','r','u','e'], ['1'], ['y','e','s'], ['y'], ['o','n']]

/-- The accepted false spellings of `bool` values (lower-cased). -/
def boolFalseStrs : List (List Char) :=
  [['f','a','l','s','e'], ['0'], ['n','o'], ['n'], ['o','f','f']]

/-- Function `_coerce_bool`: canonical forms are the strings true and false. -/
def coerce_bool (v : List Char) : Option (Bool × List Char) :=
  let w := lowerStr (pyStrip v)
  if w ∈ boolTrueStrs then some (true, ['t','r','u','e'])
  else if w ∈ boolFalseStrs then some (false, ['f','a','l','s','e'])
  else none

/-- Digits of an integer literal folded to a natural number. -/
def digitsToNat (l : List Char) : Nat :=
  l.foldl (fun n c => 10 * n + (c.toNat - 48)) 0

/-- Shape check for the pattern of an optional sign followed by one or more
decimal digits (digits modelled as ASCII 0-9). -/
def intShape : List Char → Bool
  | [] => false
  | c :: cs =>
      if c = '+' ∨ c = '-' then !cs.isEmpty && cs.all Char.isDigit
      else (c :: cs).all Char.isDigit

/-- Numeric value of a matched integer literal. -/
def parseIntChars : List Char → Int
  | [] => 0
  | c :: cs =>
      if c = '-' then -(digitsToNat cs : Int)
      else if c = '+' then (digitsToNat cs : Int)
      else (digitsToNat (c :: cs) : Int)

/-- Function `_coerce_int`: the canonical form re-serialises the integer, normalising
a leading plus sign and leading zeros. -/
def coerce_int (v : List Char) : Option (Int × List Char) :=
  let w := pyStrip v
  if intShape w then
    let i := parseIntChars w
    some (i, (toString i).data)
  else none

/-- Function `_coerce_by_type`: dispatch on the option type.  `string` is the identity;
`float` and `url` delegate to the abstract primitives (both strip first, and
the URL coercion returns the stripped value as both the value and the
canonical form). -/
def coerce_by_type (P : Prims) (value : List Char) : Ty → Option (PyVal P × List Char)
  | Ty.string => some (PyVal.vstr value, value)
  | Ty.bool => (coerce_bool value).map (fun bc => (PyVal.vbool bc.1, bc.2))
  | Ty.int => (coerce_int value).map (fun ic => (PyVal.vint ic.1, ic.2))
  | Ty.float => (P.fcoerce (pyStrip value)).map (fun f => (PyVal.vfloat f, P.fcanon f))
  | Ty.url =>
      if P.urlOk (pyStrip value) then
        some (PyVal.vstr (pyStrip value), pyStrip value)
      else none

/-- Function `_normalize_literal_for_type`: coerce an allowed literal for comparison;
for the numeric and boolean types the typed value is kept, otherwise the
canonical string; a literal that fails to coerce falls back to the raw
literal string. -/
def normalize_literal_for_type (P : Prims) (literal : List Char) (t : Ty) : PyVal P :=
  match coerce_by_type P literal t with
  | some pc =>
      match t with
      | Ty.bool => pc.1
      | Ty.int => pc.1
      | Ty.float => pc.1
      | _ => PyVal.vstr pc.2
  | none => PyVal.vstr literal

/-! ## Validation issues -/

/-- Issue severity. -/
inductive Level : Type where
  | error : Level
  | warning : Level
  deriving DecidableEq, Repr

/-- Issue category (the `code` string field of the source). -/
inductive Code : Type where
  | missing : Code
  | invalid_value : Code
  | unknown : Code
  | parse_error : Code
  | type_mismatch : Code
  deriving DecidableEq, Repr

/-- A validation issue.  The free-text `message` and the `details` payload of
the source are presentation-only and are not modelled. -/
structure ValidationIssue : Type where
  level : Level
  code : Code
  setting : Option (List Char)
  deriving DecidableEq, Repr

/-- A validation report: the issue list plus derived counts. -/
structure ValidationReport : Type where
  issues : List ValidationIssue
  errors : Nat
  warnings : Nat

/-! ## Dictionaries and sorted keys -/

/-- Association-list lookup (Python dict access; schema and configuration
dicts have unique keys, expressed as a `Nodup` hypothesis where needed). -/
def dget {α : Type} : List (List Char × α) → List Char → Option α
  | [], _ => none
  | (k, v) :: rest, key => if k = key then some v else dget rest key

/-- Python `key in dict`. -/
def hasKey {α : Type} (m : List (List Char × α)) (k : List Char) : Bool :=
  (dget m k).isSome

/-- Python string comparison: lexicographic by code point. -/
def lexLt : List Char → List Char → Bool
  | [], [] => false
  | [], _ :: _ => true
  | _ :: _, [] => false
  | a :: as, b :: bs =>
      if a.toNat < b.toNat then true
      else if b.toNat < a.toNat then false
      else lexLt as bs

/-- Insert into a sorted list (ascending by `lexLt`). -/
def insertSorted (k : List Char) : List (List Char) → List (List Char)
  | [] => [k]
  | x :: xs => if lexLt k x then k :: x :: xs else x :: insertSorted k xs

/-- Python `sorted` over strings (insertion sort; the keys of a dict are
distinct, so stability is irrelevant). -/
def sortKeys : List (List Char) → List (List Char)
  | [] => []
  | k :: ks => insertSorted k (sortKeys ks)

/-! ## The validation engine (`validate_env`) -/

/-- The literal-comparison block of `validate_env`: for the numeric and
boolean types the coerced value is compared with each literal normalised for
the same type; otherwise canonical strings are compared, case-insensitively
unless disabled. -/
def literal_ok (P : Prims) (ci : Bool) (t : Ty) (py_val : PyVal P)
    (canon_str : List Char) (literals : List (List Char)) : Bool :=
  if t = Ty.bool ∨ t = Ty.int ∨ t = Ty.float then
    (literals.map (fun lit => normalize_literal_for_type P lit t)).any
      (fun w => pyEq py_val w)
  else
    if ci then decide (lowerStr canon_str ∈ literals.map lowerStr)
    else decide (canon_str ∈ literals)

/-- The per-schema-entry body of the `validate_env` loop: missing check,
type coercion, then the allowed-value check. -/
def check_option (P : Prims) (env : List (List Char × List Char)) (ci : Bool)
    (name : List Char) (opt : ConfigOption) : List ValidationIssue :=
  match dget env name with
  | none =>
      [{ level := if opt.required then Level.error else Level.warning
         code := Code.missing
         setting := some name }]
  | some raw_value =>
      match coerce_by_type P raw_value opt.type_name with
      | none =>
          [{ level := Level.error, code := Code.type_mismatch, setting := some name }]
      | some pc =>
          let literals := opt.valid_literals.getD []
          let regex_pairs := opt.compiled_regex.getD []
          if literals.isEmpty && regex_pairs.isEmpty then []
          else
            let allowed_after_lit :=
              if !literals.isEmpty then
                literal_ok P ci opt.type_name pc.1 pc.2 literals
              else false
            let allowed_ok :=
              if allowed_after_lit then true
              else regex_pairs.any (fun p => p raw_value)
            if allowed_ok then []
            else
              [{ level := Level.error, code := Code.invalid_value, setting := some name }]

/-- Function `validate_env`: the unknown-key pass (when strict) over sorted
configuration keys, followed by the per-schema-entry pass in schema
iteration order; counts are tallied from the issue list. -/
def validate_env (P : Prims) (schema : List (List Char × ConfigOption))
    (env : List (List Char × List Char))
    (strict_unknown : Bool) (case_insensitive_values : Bool) : ValidationReport :=
  let unknownIssues :=
    if strict_unknown then
      (sortKeys (env.map Prod.fst)).foldl
        (fun acc key =>
          if hasKey schema key then acc
          else acc ++
            [{ level := Level.error, code := Code.unknown, setting := some key }])
        []
    else []
  let issues :=
    schema.foldl
      (fun acc nv => acc ++ check_option P env case_insensitive_values nv.1 nv.2)
      unknownIssues
  { issues := issues
    errors := issues.countP (fun i => decide (i.level = Level.error))
    warnings := issues.countP (fun i => decide (i.level = Level.warning)) }

/-- The unknown-key pass as a filter-map (used to state ordering facts). -/
def unknown_pass (schema : List (List Char × ConfigOption))
    (env : List (List Char × List Char)) : List ValidationIssue :=
  ((sortKeys (env.map Prod.fst)).filter (fun k => !hasKey schema k)).map
    (fun k => { level := Level.error, code := Code.unknown, setting := some k })

/-! ## Structure of the produced issue list -/

theorem foldl_append_eq_bind {α β : Type} (f : α → List β) :
    ∀ (l : List α) (acc : List β),
      l.foldl (fun a x => a ++ f x) acc = acc ++ l.flatMap f := by
  intro l
  induction l with
  | nil => intro acc; simp
  | cons x xs ih => intro acc; simp [ih, List.append_assoc]

theorem foldl_unknown_eq (schema : List (List Char × ConfigOption)) :
    ∀ (keys : List (List Char)) (acc : List ValidationIssue),
      keys.foldl
          (fun acc key =>
            if hasKey schema key then acc
            else acc ++
              [{ level := Level.error, code := Code.unknown, setting := some key }])
          acc =
        acc ++ (keys.filter (fun k => !hasKey schema k)).map
          (fun k =>
            { level := Level.error, code := Code.unknown, setting := some k }) := by
  intro keys
  induction keys with
  | nil => intro acc; simp
  | cons k ks ih =>
      intro acc
      cases hk : hasKey schema k with
      | true => simp [List.foldl_cons, hk, ih]
      | false => simp [List.foldl_cons, hk, ih, List.append_assoc]

/-- Decomposition of the issue list of `validate_env`: the unknown-key pass
(over sorted configuration keys absent from the schema) comes first, then the
per-schema-entry issues in schema iteration order. -/
theorem validate_env_issues_eq (P : Prims) (schema : List (List Char × ConfigOption))
    (env : List (List Char × List Char)) (st ci : Bool) :
    (validate_env P schema env st ci).issues =
      (if st then unknown_pass schema env else []) ++
        schema.flatMap (fun nv => check_option P env ci nv.1 nv.2) := by
  show (schema.foldl _ _) = _
  rw [foldl_append_eq_bind]
  congr 1
  cases st with
  | true => simp only [if_pos]; rw [foldl_unknown_eq]; simp [unknown_pass]
  | false => rfl

theorem check_option_cases (P : Prims) (env : List (List Char × List Char))
    (ci : Bool) (name : List Char) (opt : ConfigOption) :
    ∀ i ∈ check_option P env ci name opt,
      i = { level := if opt.required then Level.error else Level.warning
            code := Code.missing
            setting := some name } ∨
        i = { level := Level.error, code := Code.type_mismatch, setting := some name } ∨
          i = { level := Level.error, code := Code.invalid_value, setting := some name } := by
  intro i hi
  simp only [check_option] at hi
  split at hi
  · simp only [List.mem_singleton] at hi
    exact Or.inl hi
  · split at hi
    · simp only [List.mem_singleton] at hi
      exact Or.inr (Or.inl hi)
    · split at hi
      · simp at hi
      · split at hi
        · simp at hi
          exact Or.inr (Or.inr hi.2)
        · simp at hi
          exact Or.inr (Or.inr hi.2)

theorem check_option_setting (P : Prims) (env : List (List Char × List Char))
    (ci : Bool) (name : List Char) (opt : ConfigOption) :
    ∀ i ∈ check_option P env ci name opt, i.setting = some name := by
  intro i hi
  rcases check_option_cases P env ci name opt i hi with h | h | h <;> rw [h]

theorem check_option_length (P : Prims) (env : List (List Char × List Char))
    (ci : Bool) (name : List Char) (opt : ConfigOption) :
    (check_option P env ci name opt).length ≤ 1 := by
  simp only [check_option]
  repeat' split
  all_goals simp

theorem check_option_code_ne_unknown (P : Prims) (env : List (List Char × List Char))
    (ci : Bool) (name : List Char) (opt : ConfigOption) :
    ∀ i ∈ check_option P env ci name opt, i.code ≠ Code.unknown := by
  intro i hi
  rcases check_option_cases P env ci name opt i hi with h | h | h <;> rw [h] <;> simp

theorem unknown_pass_mem (schema : List (List Char × ConfigOption))
    (env : List (List Char × List Char)) :
    ∀ i ∈ unknown_pass schema env, ∃ k,
      i = { level := Level.error, code := Code.unknown, setting := some k } ∧
        hasKey schema k = false := by
  intro i hi
  simp only [unknown_pass, List.mem_map, List.mem_filter] at hi
  obtain ⟨k, ⟨_, hk⟩, hik⟩ := hi
  exact ⟨k, hik.symm, by simpa using hk⟩

theorem hasKey_of_mem {α : Type} (name : List Char) (v : α) :
    ∀ m : List (List Char × α), (name, v) ∈ m → hasKey m name = true := by
  intro m
  induction m with
  | nil => intro h; exact absurd h (by simp)
  | cons kv rest ih =>
      intro h
      rcases List.mem_cons.1 h with h' | h'
      · subst h'
        simp [hasKey, dget]
      · by_cases hk : kv.1 = name
        · simp [hasKey, dget, hk]
        · have := ih h'
          simp only [hasKey, dget] at this ⊢
          cases kv with
          | mk k2 v2 =>
              simp only at hk
              rw [if_neg hk]
              exact this

theorem filter_unknown_pass (schema : List (List Char × ConfigOption))
    (env : List (List Char × List Char)) (name : List Char)
    (h : hasKey schema name = true) :
    (unknown_pass schema env).filter (fun i => decide (i.setting = some name)) = [] := by
  rw [List.filter_eq_nil_iff]
  intro i hi
  obtain ⟨k, hik, hk⟩ := unknown_pass_mem schema env i hi
  subst hik
  simp only [decide_eq_true_eq]
  intro hc
  simp only [Option.some.injEq] at hc
  subst hc
  rw [h] at hk
  exact Bool.noConfusion hk

theorem bind_filter_setting (P : Prims) (env : List (List Char × List Char))
    (ci : Bool) (name : List Char) (opt : ConfigOption) :
    ∀ schema : List (List Char × ConfigOption),
      (schema.map Prod.fst).Nodup → (name, opt) ∈ schema →
      (schema.flatMap (fun nv => check_option P env ci nv.1 nv.2)).filter
          (fun i => decide (i.setting = some name)) =
        check_option P env ci name opt := by
  intro schema
  induction schema with
  | nil => intro _ h; exact absurd h (by simp)
  | cons kv rest ih =>
      intro hnd hmem
      rw [List.flatMap_cons, List.filter_append]
      rcases List.mem_cons.1 hmem with h' | h'
      · -- head entry is (name, opt)
        have hkv : kv = (name, opt) := h'.symm
        subst hkv
        have h1 : (check_option P env ci name opt).filter
            (fun i => decide (i.setting = some name)) =
              check_option P env ci name opt := by
          rw [List.filter_eq_self]
          intro i hi
          simp [check_option_setting P env ci name opt i hi]
        have h2 : (rest.flatMap (fun nv => check_option P env ci nv.1 nv.2)).filter
            (fun i => decide (i.setting = some name)) = [] := by
          rw [List.filter_eq_nil_iff]
          intro i hi
          simp only [List.mem_flatMap] at hi
          obtain ⟨nv, hnv, hinv⟩ := hi
          have hset := check_option_setting P env ci nv.1 nv.2 i hinv
          have hkne : nv.1 ≠ name := by
            intro hc
            have hmm : name ∈ rest.map Prod.fst := List.mem_map.2 ⟨nv, hnv, hc⟩
            rw [List.map_cons, List.nodup_cons] at hnd
            exact hnd.1 hmm
          simp [hset, hkne]
        rw [h1, h2, List.append_nil]
      · -- (name, opt) is in the tail
        have hkne : kv.1 ≠ name := by
          intro hc
          have hmm : name ∈ rest.map Prod.fst := List.mem_map.2 ⟨(name, opt), h', rfl⟩
          have hnd2 := hnd
          rw [List.map_cons, List.nodup_cons] at hnd2
          rw [hc] at hnd2
          exact hnd2.1 hmm
        have h1 : (check_option P env ci kv.1 kv.2).filter
            (fun i => decide (i.setting = some name)) = [] := by
          rw [List.filter_eq_nil_iff]
          intro i hi
          have hset := check_option_setting P env ci kv.1 kv.2 i hi
          simp [hset, hkne]
        rw [h1, List.nil_append]
        exact ih (List.nodup_cons.1 hnd).2 h'

/-! ## Sortedness of the unknown-key pass -/

/-- Ascending order as produced by sorting with `lexLt`. -/
def keyLe (a b : List Char) : Prop := lexLt b a = false

theorem lexLt_asymm : ∀ a b : List Char, lexLt a b = true → lexLt b a = false
  | [], [], h => by simp [lexLt] at h
  | [], _ :: _, _ => by simp [lexLt]
  | _ :: _, [], h => by simp [lexLt] at h
  | a :: as, b :: bs, h => by
      simp only [lexLt] at h ⊢
      by_cases h1 : a.toNat < b.toNat
      · rw [if_neg (by omega), if_pos h1]
      · by_cases h2 : b.toNat < a.toNat
        · rw [if_neg h1, if_pos h2] at h
          exact absurd h (by simp)
        · rw [if_neg h1, if_neg h2] at h
          rw [if_neg h2, if_neg h1]
          exact lexLt_asymm as bs h

theorem lexLt_nil_right (b : List Char) : lexLt b [] = false := by
  cases b <;> simp [lexLt]

theorem lexLt_trans : ∀ a b c : List Char,
    lexLt a b = true → lexLt b c = true → lexLt a c = true
  | _, b, [], _, h2 => by rw [lexLt_nil_right b] at h2; exact Bool.noConfusion h2
  | [], _, _ :: _, _, _ => by simp [lexLt]
  | _ :: _, [], _ :: _, h1, _ => by simp [lexLt] at h1
  | a :: as, b :: bs, c :: cs, h1, h2 => by
      simp only [lexLt] at h1 h2 ⊢
      by_cases hab : a.toNat < b.toNat
      · by_cases hbc : b.toNat < c.toNat
        · rw [if_pos (by omega)]
        · by_cases hcb : c.toNat < b.toNat
          · rw [if_neg hbc, if_pos hcb] at h2
            exact absurd h2 (by simp)
          · rw [if_pos (by omega)]
      · by_cases hba : b.toNat < a.toNat
        · rw [if_neg hab, if_pos hba] at h1
          exact absurd h1 (by simp)
        · rw [if_neg hab, if_neg hba] at h1
          by_cases hbc : b.toNat < c.toNat
          · rw [if_pos (by omega)]
          · by_cases hcb : c.toNat < b.toNat
            · rw [if_neg hbc, if_pos hcb] at h2
              exact absurd h2 (by simp)
            · rw [if_neg hbc, if_neg hcb] at h2
              rw [if_neg (by omega), if_neg (by omega)]
              exact lexLt_trans as bs cs h1 h2

theorem mem_insertSorted (k : List Char) :
    ∀ (xs : List (List Char)) (z : List Char),
      z ∈ insertSorted k xs → z = k ∨ z ∈ xs
  | [], z, h => Or.inl (by simpa [insertSorted] using h)
  | x :: xs, z, h => by
      simp only [insertSorted] at h
      split at h
      · rcases List.mem_cons.1 h with h' | h'
        · exact Or.inl h'
        · exact Or.inr h'
      · rcases List.mem_cons.1 h with h' | h'
        · exact Or.inr (by simp [h'])
        · rcases mem_insertSorted k xs z h' with h'' | h''
          · exact Or.inl h''
          · exact Or.inr (List.mem_cons_of_mem _ h'')

theorem pairwise_insertSorted (k : List Char) :
    ∀ xs : List (List Char), List.Pairwise keyLe xs →
      List.Pairwise keyLe (insertSorted k xs)
  | [], _ => List.pairwise_singleton keyLe k
  | x :: xs, hp => by
      obtain ⟨hx, hxs⟩ := List.pairwise_cons.1 hp
      simp only [insertSorted]
      split
      · rename_i hkx
        refine List.pairwise_cons.2 ⟨?_, hp⟩
        intro z hz
        rcases List.mem_cons.1 hz with h' | h'
        · subst h'
          exact lexLt_asymm k z hkx
        · show lexLt z k = false
          cases hzk : lexLt z k with
          | false => rfl
          | true =>
              exfalso
              have htr := lexLt_trans z k x hzk hkx
              have hxz : lexLt z x = false := hx z h'
              rw [hxz] at htr
              exact Bool.noConfusion htr
      · rename_i hkx
        refine List.pairwise_cons.2 ⟨?_, pairwise_insertSorted k xs hxs⟩
        intro z hz
        rcases mem_insertSorted k xs z hz with h' | h'
        · subst h'
          show lexLt z x = false
          exact Bool.not_eq_true _ ▸ (by simpa using hkx)
        · exact hx z h'

theorem pairwise_sortKeys (l : List (List Char)) :
    List.Pairwise keyLe (sortKeys l) := by
  induction l with
  | nil => exact List.Pairwise.nil
  | cons k ks ih => exact pairwise_insertSorted k _ ih

theorem insertSorted_perm (k : List Char) :
    ∀ xs : List (List Char), List.Perm (insertSorted k xs) (k :: xs)
  | [] => List.Perm.refl _
  | x :: xs => by
      simp only [insertSorted]
      split
      · exact List.Perm.refl _
      · exact ((insertSorted_perm k xs).cons x).trans (List.Perm.swap k x xs)

theorem sortKeys_perm (l : List (List Char)) : List.Perm (sortKeys l) l := by
  induction l with
  | nil => exact List.Perm.refl _
  | cons k ks ih => exact (insertSorted_perm k (sortKeys ks)).trans (ih.cons k)

/-- Filtering the full issue list of a run down to one schema option's name
leaves exactly that option's per-entry issues. -/
theorem validate_filter_eq (P : Prims) (schema : List (List Char × ConfigOption))
    (env : List (List Char × List Char)) (st ci : Bool)
    (name : List Char) (opt : ConfigOption)
    (hnd : (schema.map Prod.fst).Nodup) (hmem : (name, opt) ∈ schema) :
    ((validate_env P schema env st ci).issues).filter
        (fun i => decide (i.setting = some name)) =
      check_option P env ci name opt := by
  rw [validate_env_issues_eq, List.filter_append,
    bind_filter_setting P env ci name opt schema hnd hmem]
  have hk : hasKey schema name = true := hasKey_of_mem name opt schema hmem
  cases st with
  | true =>
      simp only [if_pos]
      rw [filter_unknown_pass schema env name hk, List.nil_append]
  | false => rfl

/-! ## The allowed-value check in isolation -/

/-- The per-entry check under a successful coercion, in the shape of the
specification: the literal check is decided first; the regex check runs only
when no literal matched and is applied to the original raw value; an
`invalid_value` error is emitted exactly when both fail. -/
theorem check_option_of_coerced (P : Prims) (env : List (List Char × List Char))
    (ci : Bool) (name : List Char) (opt : ConfigOption)
    (raw : List Char) (pv : PyVal P) (canon : List Char)
    (hget : dget env name = some raw)
    (hco : coerce_by_type P raw opt.type_name = some (pv, canon)) :
    check_option P env ci name opt =
      (if (opt.valid_literals.getD []).isEmpty ∧ (opt.compiled_regex.getD []).isEmpty
       then []
       else
        if (if !(opt.valid_literals.getD []).isEmpty then
              literal_ok P ci opt.type_name pv canon (opt.valid_literals.getD [])
            else false) then []
        else if (opt.compiled_regex.getD []).any (fun p => p raw) then []
        else
          [{ level := Level.error, code := Code.invalid_value, setting := some name }]) := by
  cases hE1 : (opt.valid_literals.getD []).isEmpty <;>
    cases hE2 : (opt.compiled_regex.getD []).isEmpty <;>
      cases hL : (if !(opt.valid_literals.getD []).isEmpty then
          literal_ok P ci opt.type_name pv canon (opt.valid_literals.getD [])
        else false) <;>
        cases hA : (opt.compiled_regex.getD []).any (fun p => p raw) <;>
          simp [check_option, hget, hco, hE1, hE2, hL, hA]

theorem coerce_not_vstr (P : Prims) (v : List Char) (t : Ty) (pv : PyVal P)
    (canon : List Char)
    (ht : t = Ty.bool ∨ t = Ty.int ∨ t = Ty.float)
    (h : coerce_by_type P v t = some (pv, canon)) :
    ∀ s, pv ≠ PyVal.vstr s := by
  intro s hc
  subst hc
  rcases ht with h' | h' | h' <;> subst h' <;>
    simp only [coerce_by_type, Option.map_eq_some'] at h <;>
      obtain ⟨a, _, ha⟩ := h <;> simp at ha

/-- The literal comparison for the numeric and boolean types: a value matches
exactly when some allowed literal coerces successfully under the same type
and the coerced values are equal; a literal that fails to coerce never
matches (its raw-string fallback compares unequal to any typed value). -/
theorem literal_ok_numeric (P : Prims) (ci : Bool) (t : Ty) (pv : PyVal P)
    (canon : List Char) (lits : List (List Char))
    (ht : t = Ty.bool ∨ t = Ty.int ∨ t = Ty.float)
    (hpv : ∀ s, pv ≠ PyVal.vstr s) :
    (literal_ok P ci t pv canon lits = true ↔
      ∃ lit ∈ lits, ∃ (w : PyVal P) (canon2 : List Char),
        coerce_by_type P lit t = some (w, canon2) ∧ pyEq pv w = true) := by
  unfold literal_ok
  rw [if_pos ht, List.any_eq_true]
  constructor
  · rintro ⟨w, hw, hpq⟩
    rw [List.mem_map] at hw
    obtain ⟨lit, hlit, hwl⟩ := hw
    subst hwl
    unfold normalize_literal_for_type at hpq
    rcases hc : coerce_by_type P lit t with _ | pc
    · rw [hc] at hpq
      exfalso
      cases pv with
      | vstr s => exact hpv s rfl
      | vint i => exact Bool.noConfusion hpq
      | vbool b => exact Bool.noConfusion hpq
      | vfloat f => exact Bool.noConfusion hpq
    · rw [hc] at hpq
      refine ⟨lit, hlit, pc.1, pc.2, hc, ?_⟩
      rcases ht with h' | h' | h' <;> subst h' <;> simpa using hpq
  · rintro ⟨lit, hlit, w, canon2, hc, hpq⟩
    refine ⟨normalize_literal_for_type P lit t, List.mem_map.2 ⟨lit, hlit, rfl⟩, ?_⟩
    unfold normalize_literal_for_type
    rw [hc]
    rcases ht with h' | h' | h' <;> subst h' <;> simpa using hpq

/-! ## Whitespace-suffix absorption (for the configuration loader) -/

theorem dropWhile_append_of_all {α : Type} (p : α → Bool) (xs ys : List α)
    (h : ∀ c ∈ xs, p c = true) :
    (xs ++ ys).dropWhile p = ys.dropWhile p := by
  induction xs with
  | nil => rfl
  | cons c cs ih =>
      rw [List.cons_append, List.dropWhile_cons_of_pos (h c (by simp))]
      exact ih (fun c hc => h c (List.mem_cons_of_mem _ hc))

theorem trimEnd_append_all_ws (y zs : List Char) (h : ∀ c ∈ zs, isWs c = true) :
    trimEnd (y ++ zs) = trimEnd y := by
  unfold trimEnd
  rw [List.reverse_append, dropWhile_append_of_all isWs zs.reverse y.reverse
    (fun c hc => h c (List.mem_reverse.1 hc))]

theorem pyStrip_append_ws (x zs : List Char) (h : ∀ c ∈ zs, isWs c = true) :
    pyStrip (x ++ zs) = pyStrip x := by
  unfold pyStrip trimStart
  rw [List.dropWhile_append]
  cases hE : (x.dropWhile isWs).isEmpty with
  | true =>
      simp only [if_pos]
      have h1 : zs.dropWhile isWs = [] := List.dropWhile_eq_nil_iff.2 h
      have h2 : x.dropWhile isWs = [] := by
        cases hx : x.dropWhile isWs with
        | nil => rfl
        | cons a as => rw [hx] at hE; exact Bool.noConfusion hE
      rw [h1, h2]
  | false =>
      simp only [Bool.false_eq_true, if_neg, ite_false]
      exact trimEnd_append_all_ws _ _ h

theorem rstripChar_append (c0 : Char) (l : List Char) :
    ∃ zs, (∀ c ∈ zs, c = c0) ∧ rstripChar c0 l ++ zs = l := by
  refine ⟨(l.reverse.takeWhile (fun c => c == c0)).reverse, ?_, ?_⟩
  · intro c hc
    rw [List.mem_reverse] at hc
    simpa using List.mem_takeWhile_imp hc
  · rw [rstripChar, ← List.reverse_append, List.takeWhile_append_dropWhile,
      List.reverse_reverse]

theorem pyStrip_rstripChar (c0 : Char) (l : List Char) (h : isWs c0 = true) :
    pyStrip (rstripChar c0 l) = pyStrip l := by
  obtain ⟨zs, hz, hl⟩ := rstripChar_append c0 l
  conv_rhs => rw [← hl]
  rw [pyStrip_append_ws _ _ (fun c hc => by rw [hz c hc]; exact h)]

/-! ## Concrete instances used by witnesses and counterexamples -/

/-- A trivial instantiation of the abstract primitives. -/
def trivPrims : Prims := ⟨Unit, fun _ _ => true, fun _ => none, fun _ => [], fun _ => false⟩

/-- A sample key. -/
def kAAA : List Char := ['A', 'A', 'A']

/-- Another sample key (not in the sample schemas). -/
def kBBB : List Char := ['B', 'B', 'B']

/-- A required `int` option with no allow-list. -/
def optIntReq : ConfigOption :=
  ⟨kAAA, Ty.int, none, true, none, none, none, none, false⟩

/-- A required `string` option with a default (the default must not rescue a
missing key). -/
def optDefReq : ConfigOption :=
  ⟨kAAA, Ty.string, some ['d'], true, none, none, none, none, false⟩

/-- An optional `string` option with one allowed literal and one pattern. -/
def optLit : ConfigOption :=
  ⟨kAAA, Ty.string, none, false, some [['o', 'k']], none,
    some [fun v => decide (v = ['z'])], none, false⟩

/-- The inner list text of the tokenizer scenario of the specification. -/
def c6inner : List Char :=
  [sqc, '/', 'a', ',', 'b', '/', sqc, ',', ' ',
   sqc, 'l', 'i', 't', 'e', 'r', 'a', 'l', ',', 'w', 'i', 't', 'h', ',',
   'c', 'o', 'm', 'm', 'a', sqc]

/-! ## The claims -/

/-- C1: for every schema option whose key is present in the configuration but
whose value fails type coercion, `validate_env` emits exactly one error-level
`type_mismatch` issue for that key and never an `invalid_value` issue for the
same key in the same run, even when the option declares allowed literals or
patterns: the issues carrying that key are exactly the one `type_mismatch`
error. -/
theorem claim_C1 (P : Prims) (schema : List (List Char × ConfigOption))
    (env : List (List Char × List Char)) (st ci : Bool)
    (name : List Char) (opt : ConfigOption) (raw : List Char)
    (hnd : (schema.map Prod.fst).Nodup)
    (hmem : (name, opt) ∈ schema)
    (hget : dget env name = some raw)
    (hco : coerce_by_type P raw opt.type_name = none) :
    ((validate_env P schema env st ci).issues).filter
        (fun i => decide (i.setting = some name)) =
      [{ level := Level.error, code := Code.type_mismatch, setting := some name }] := by
  rw [validate_filter_eq P schema env st ci name opt hnd hmem]
  simp [check_option, hget, hco]

/-- Witness for C1 at a concrete run: an `int` option receiving a non-integer
value yields exactly the one `type_mismatch` error for its key. -/
theorem claim_C1_witness :
    ((validate_env trivPrims [(kAAA, optIntReq)] [(kAAA, ['x'])] false true).issues).filter
        (fun i => decide (i.setting = some kAAA)) =
      [{ level := Level.error, code := Code.type_mismatch, setting := some kAAA }] :=
  claim_C1 trivPrims [(kAAA, optIntReq)] [(kAAA, ['x'])] false true kAAA optIntReq
    ['x'] (by simp) (List.mem_cons_self _ _) (by decide) rfl

/-- C2: for every schema option whose key is absent from the configuration
map, `validate_env` emits exactly one `missing` issue for that option —
error-level when `required` is true (even when the option has a default,
which is never auto-applied: the statement holds for every `opt.default`),
warning-level when `required` is false — and no further checks run for that
key: the issues carrying that key are exactly the one `missing` issue. -/
theorem claim_C2 (P : Prims) (schema : List (List Char × ConfigOption))
    (env : List (List Char × List Char)) (st ci : Bool)
    (name : List Char) (opt : ConfigOption)
    (hnd : (schema.map Prod.fst).Nodup)
    (hmem : (name, opt) ∈ schema)
    (hget : dget env name = none) :
    ((validate_env P schema env st ci).issues).filter
        (fun i => decide (i.setting = some name)) =
      [{ level := if opt.required then Level.error else Level.warning
         code := Code.missing
         setting := some name }] := by
  rw [validate_filter_eq P schema env st ci name opt hnd hmem]
  simp [check_option, hget]

/-- Witness for C2 at a concrete run: a required option with a default is
still flagged with an error-level `missing` issue when absent. -/
theorem claim_C2_witness :
    ((validate_env trivPrims [(kAAA, optDefReq)] [] false true).issues).filter
        (fun i => decide (i.setting = some kAAA)) =
      [{ level := Level.error, code := Code.missing, setting := some kAAA }] := by
  have h := claim_C2 trivPrims [(kAAA, optDefReq)] [] false true kAAA optDefReq
    (by simp) (List.mem_cons_self _ _) (by decide)
  simpa [optDefReq] using h

/-- C3, counterexample: the claim puts the per-schema-entry issues before the
unknown-key pass, but the code emits the unknown-key pass first.  With a
schema containing one missing required option and a configuration containing
one unknown key under strict mode, the issue codes come out as
`[unknown, missing]`, not `[missing, unknown]` as the claim requires. -/
theorem claim_C3_cex :
    ((validate_env trivPrims [(kAAA, optIntReq)] [(kBBB, ['x'])] true true).issues.map
        (fun i => i.code) = [Code.unknown, Code.missing]) ∧
      [Code.unknown, Code.missing] ≠ [Code.missing, Code.unknown] :=
  ⟨by decide, by decide⟩

/-- C3, amended: the issues of `validate_env` appear in deterministic order —
first the unknown-key pass (present only under `strictUnknown`, one
`error/unknown` per configuration key absent from the schema, over the keys
in sorted order), then the per-schema-entry issues in schema iteration
order.  The sorted key sequence is ascending for `lexLt` and is a
permutation of the configuration keys. -/
theorem claim_C3 (P : Prims) (schema : List (List Char × ConfigOption))
    (env : List (List Char × List Char)) (st ci : Bool) :
    ((validate_env P schema env st ci).issues =
        (if st then unknown_pass schema env else []) ++
          schema.flatMap (fun nv => check_option P env ci nv.1 nv.2)) ∧
      List.Pairwise keyLe (sortKeys (env.map Prod.fst)) ∧
      List.Perm (sortKeys (env.map Prod.fst)) (env.map Prod.fst) :=
  ⟨validate_env_issues_eq P schema env st ci, pairwise_sortKeys _, sortKeys_perm _⟩

/-- C4, counterexample: the bare token none, which differs from the
case-sensitive literal None, still produces an absent default — the code
compares case-insensitively, contradicting the claim that no token other
than the exact case-sensitive None produces an absent default. -/
theorem claim_C4_cex :
    (parse_default_value_with_quote_info ['n', 'o', 'n', 'e']).1 = none ∧
      (['n', 'o', 'n', 'e'] : List Char) ≠ ['N', 'o', 'n', 'e'] :=
  ⟨by decide, by decide⟩

/-- C4, amended: a default meta-line whose bare value matches the token None
case-INsensitively (after stripping whitespace and trailing commas) sets the
option default to absent — distinct from an empty-string default — while a
quoted None is an ordinary string default with value None; requiredness is
resolved from the `required` meta-line alone (false when absent), and the
assembled option's default is exactly the accumulator's default, so an
absent default leaves the option optional unless `required` is separately
set true. -/
theorem claim_C4 :
    (∀ tok : List Char,
        ((parse_default_value_with_quote_info tok).1 = none ↔
          lowerStr (rstripComma (pyStrip tok)) = ['n', 'o', 'n', 'e'])) ∧
      parse_default_value_with_quote_info
          ([sqc] ++ ['N', 'o', 'n', 'e'] ++ [sqc]) =
        (some ['N', 'o', 'n', 'e'], true) ∧
      (∀ (header : List Char) (meta : MetaAcc),
        (assemble_option header meta).required = meta.required.getD false ∧
          (assemble_option header meta).default = meta.default) := by
  refine ⟨?_, by decide, fun header meta => ⟨rfl, rfl⟩⟩
  intro tok
  by_cases h : lowerStr (rstripComma (pyStrip tok)) = ['n', 'o', 'n', 'e'] <;>
    simp [parse_default_value_with_quote_info, h]

/-- C5, counterexample: for the unquoted value abc followed by two
single-quote characters the loader strips BOTH trailing quote characters
(Python `strip` removes all occurrences), while the claim's one-layer pass
would keep one of them. -/
theorem claim_C5_cex :
    parse_env_value ['a', 'b', 'c', sqc, sqc] = ['a', 'b', 'c'] ∧
      strip_one_quote_layer ['a', 'b', 'c', sqc, sqc] = ['a', 'b', 'c', sqc] ∧
      (['a', 'b', 'c'] : List Char) ≠ ['a', 'b', 'c', sqc] :=
  ⟨by decide, by decide, by decide⟩

/-- C5, amended: for every configuration value that (after trimming) does not
start with a quote character, the loader truncates at the first `#` when it
is preceded by whitespace, trims surrounding whitespace, and as a final pass
strips ALL leading/trailing single-quote characters and then ALL
leading/trailing double-quote characters (so a value ending in two identical
quote characters loses both). -/
theorem claim_C5 (raw : List Char)
    (hq : ∀ c, (pyStrip raw).head? = some c → ¬ (c = sqc ∨ c = dqc)) :
    parse_env_value raw =
      stripBoth dqc (stripBoth sqc (pyStrip (hashTruncate (pyStrip raw)))) := by
  have hs : pyStrip (rstripChar crc (rstripChar nlc raw)) = pyStrip raw := by
    rw [pyStrip_rstripChar crc _ (by decide), pyStrip_rstripChar nlc _ (by decide)]
  unfold parse_env_value
  rw [hs]
  cases hsp : pyStrip raw with
  | nil => decide
  | cons c rest =>
      have hcq : ¬ (c = sqc ∨ c = dqc) := hq c (by rw [hsp]; rfl)
      simp only [if_neg hcq]

/-- Witness for C5 at a concrete run: an unquoted value with an inline
comment follows the truncate-trim-strip pipeline. -/
theorem claim_C5_witness :
    parse_env_value ['v', 'a', 'l', ' ', '#', 'c'] =
      stripBoth dqc (stripBoth sqc
        (pyStrip (hashTruncate (pyStrip ['v', 'a', 'l', ' ', '#', 'c'])))) :=
  claim_C5 ['v', 'a', 'l', ' ', '#', 'c'] (by decide)

/-- C6: the List Tokenizer splits only on top-level commas — every produced
token is nonempty and, rescanned from top level, contains no separating
comma (commas inside quoted strings or slash-delimited regexes are protected
by the scanner state) — and the scenario inner text tokenizes into exactly
the two tokens, not four. -/
theorem claim_C6 :
    (∀ s : List Char, ∀ t ∈ tokenize_list s,
        t ≠ [] ∧ noSplit Mode.top t = true) ∧
      tokenize_list c6inner =
        [[sqc, '/', 'a', ',', 'b', '/', sqc],
         [sqc, 'l', 'i', 't', 'e', 'r', 'a', 'l', ',', 'w', 'i', 't', 'h', ',',
          'c', 'o', 'm', 'm', 'a', sqc]] := by
  constructor
  · intro s t ht
    have h := goodToks_mem _ (goodToks_tokenize s) t ht
    exact ⟨h.2.2, h.1⟩
  · decide

/-- Witness for C6: a concrete token of a concrete tokenization is nonempty
and free of separating commas. -/
theorem claim_C6_witness :
    (['a'] : List Char) ≠ [] ∧ noSplit Mode.top ['a'] = true :=
  claim_C6.1 ['a'] ['a'] (by decide)

/-- C7: the List Tokenizer is idempotent under comma re-joining — with
ts = tokenize(s), tokenizing join(tokenize(join(ts))) equals
tokenize(join(ts)). -/
theorem claim_C7 (s : List Char) :
    tokenize_list (joinC (tokenize_list (joinC (tokenize_list s)))) =
      tokenize_list (joinC (tokenize_list s)) :=
  tokenize_roundtrip (joinC (tokenize_list s))

/-- C8: in the allowed-value check, the literal check is decided first and
the regex check runs only when no literal matched; the compiled patterns are
applied (as fullmatch predicates) to the original raw configuration value —
not to the canonical coerced form — and any single pattern match suffices;
an `invalid_value` error is emitted exactly when both checks fail. -/
theorem claim_C8 (P : Prims) (schema : List (List Char × ConfigOption))
    (env : List (List Char × List Char)) (st ci : Bool)
    (name : List Char) (opt : ConfigOption)
    (raw : List Char) (pv : PyVal P) (canon : List Char)
    (hnd : (schema.map Prod.fst).Nodup)
    (hmem : (name, opt) ∈ schema)
    (hget : dget env name = some raw)
    (hco : coerce_by_type P raw opt.type_name = some (pv, canon))
    (hal : ¬ ((opt.valid_literals.getD []).isEmpty ∧
      (opt.compiled_regex.getD []).isEmpty)) :
    ((validate_env P schema env st ci).issues).filter
        (fun i => decide (i.setting = some name)) =
      (if (if !(opt.valid_literals.getD []).isEmpty then
              literal_ok P ci opt.type_name pv canon (opt.valid_literals.getD [])
            else false) then []
       else if (opt.compiled_regex.getD []).any (fun p => p raw) then []
       else
        [{ level := Level.error, code := Code.invalid_value, setting := some name }]) := by
  rw [validate_filter_eq P schema env st ci name opt hnd hmem,
    check_option_of_coerced P env ci name opt raw pv canon hget hco, if_neg hal]

/-- Witness for C8 at a concrete run: a value matching neither the literal
nor the pattern produces the `invalid_value` error through the
literal-first, regex-on-raw decision chain. -/
theorem claim_C8_witness :
    ((validate_env trivPrims [(kAAA, optLit)] [(kAAA, ['n', 'o'])] false true).issues).filter
        (fun i => decide (i.setting = some kAAA)) =
      [{ level := Level.error, code := Code.invalid_value, setting := some kAAA }] := by
  rw [claim_C8 trivPrims [(kAAA, optLit)] [(kAAA, ['n', 'o'])] false true kAAA optLit
    ['n', 'o'] (PyVal.vstr ['n', 'o']) ['n', 'o'] (by simp) (List.mem_cons_self _ _)
    (by decide) rfl (by simp [optLit])]
  decide

/-- C9: for options of type bool, int, or float, the literal check compares
the coerced typed value of the configuration value against each allowed
literal coerced through the same Type Coercion Engine, with exact equality
on the typed value; a literal that itself fails to coerce is excluded from
the comparison set (its raw-string fallback can never equal a typed value)
and causes no issue — the check succeeds exactly when some literal coerces
and compares equal. -/
theorem claim_C9 (P : Prims) (ci : Bool) (t : Ty) (raw : List Char)
    (pv : PyVal P) (canon : List Char) (lits : List (List Char))
    (ht : t = Ty.bool ∨ t = Ty.int ∨ t = Ty.float)
    (hco : coerce_by_type P raw t = some (pv, canon)) :
    (literal_ok P ci t pv canon lits = true ↔
      ∃ lit ∈ lits, ∃ (w : PyVal P) (canon2 : List Char),
        coerce_by_type P lit t = some (w, canon2) ∧ pyEq pv w = true) :=
  literal_ok_numeric P ci t pv canon lits ht
    (coerce_not_vstr P raw t pv canon ht hco)

/-- Witness for C9 at a concrete instance: for a bool option the value 1
matches the allowed literal list containing 1 and a non-coercible literal. -/
theorem claim_C9_witness :
    (literal_ok trivPrims true Ty.bool (PyVal.vbool true) ['t', 'r', 'u', 'e']
        [['1'], ['x']] = true ↔
      ∃ lit ∈ [['1'], ['x']], ∃ (w : PyVal trivPrims) (canon2 : List Char),
        coerce_by_type trivPrims lit Ty.bool = some (w, canon2) ∧
          pyEq (PyVal.vbool true) w = true) :=
  claim_C9 trivPrims true Ty.bool ['1'] (PyVal.vbool true) ['t', 'r', 'u', 'e']
    [['1'], ['x']] (Or.inl rfl) rfl

/-- C10: in a single run `validate_env` emits at most one issue whose setting
equals a given schema option's name, and `unknown` issues are only ever
attached to configuration keys that are not schema option names — so the two
passes never produce two issues for the same name. -/
theorem claim_C10 (P : Prims) (schema : List (List Char × ConfigOption))
    (env : List (List Char × List Char)) (st ci : Bool)
    (hnd : (schema.map Prod.fst).Nodup) :
    (∀ (name : List Char) (opt : ConfigOption), (name, opt) ∈ schema →
        ((validate_env P schema env st ci).issues.filter
            (fun i => decide (i.setting = some name))).length ≤ 1) ∧
      (∀ i ∈ (validate_env P schema env st ci).issues,
        i.code = Code.unknown → ∀ k, i.setting = some k →
          hasKey schema k = false) := by
  constructor
  · intro name opt hmem
    rw [validate_filter_eq P schema env st ci name opt hnd hmem]
    exact check_option_length P env ci name opt
  · intro i hi hcode k hk
    rw [validate_env_issues_eq] at hi
    rcases List.mem_append.1 hi with h' | h'
    · have h'' : i ∈ unknown_pass schema env := by
        cases st with
        | true => simpa using h'
        | false => simp at h'
      obtain ⟨k2, hik, hk2⟩ := unknown_pass_mem schema env i h''
      subst hik
      simp only [Option.some.injEq] at hk
      rw [← hk]
      exact hk2
    · rw [List.mem_flatMap] at h'
      obtain ⟨nv, hnv, hin⟩ := h'
      exact absurd hcode (check_option_code_ne_unknown P env ci nv.1 nv.2 i hin)

/-- Witness for C10 at a concrete run: one schema option, one unknown key,
strict mode. -/
theorem claim_C10_witness :
    (∀ (name : List Char) (opt : ConfigOption),
        (name, opt) ∈ [(kAAA, optIntReq)] →
        ((validate_env trivPrims [(kAAA, optIntReq)] [(kBBB, ['x'])] true true).issues.filter
            (fun i => decide (i.setting = some name))).length ≤ 1) ∧
      (∀ i ∈ (validate_env trivPrims [(kAAA, optIntReq)] [(kBBB, ['x'])] true true).issues,
        i.code = Code.unknown → ∀ k, i.setting = some k →
          hasKey [(kAAA, optIntReq)] k = false) :=
  claim_C10 trivPrims [(kAAA, optIntReq)] [(kBBB, ['x'])] true true (by simp)

end EnvValidator
